import Mathlib

/-!
Shallow embedding of `src/collect.py` (collect-project-context).

Paths are modelled as POSIX path strings, represented as lists of
characters.  All paths handed to the embedded functions are assumed to be
absolute and normalized (no `.` or `..` components, no duplicate or
trailing slashes), so that `os.path.abspath` is the identity on them.
The filesystem is modelled explicitly by the `FSEntry` tree; where the
source queries `os.path.isdir`, the embedding receives the answer as a
boolean or reads it off the tree.  `fnmatch.fnmatch` is modelled with the
POSIX (case-sensitive, identity `normcase`) semantics of CPython's
`fnmatch.translate`.
-/

namespace Collect

abbrev Str := List Char

def chars (s : String) : Str := s.data

/-- The whitespace characters stripped by Python `str.strip()` (ASCII part). -/
def pyIsSpace (c : Char) : Bool :=
  c == ' ' || c == '\t' || c == '\n' || c == '\r' || c == '\x0b' || c == '\x0c'

/-- Removal of trailing whitespace, the second half of Python `str.strip()`. -/
def dropTrail (p : Char → Bool) (l : Str) : Str := (l.reverse.dropWhile p).reverse

/-- Python `str.strip()`. -/
def strip (s : Str) : Str := dropTrail pyIsSpace (s.dropWhile pyIsSpace)

/-!  ### fnmatch

CPython `fnmatch.translate` scans a character class `[...]` by skipping an
optional leading `!`, then an optional `]` (which is then an ordinary
member), then everything up to the next `]`.  If no closing `]` exists the
`[` is an ordinary character.  -/

/-- Scan to the next closing `]`, returning the content before it and the
remainder after it. -/
def findCloseFrom : Str → Option (Str × Str)
  | [] => none
  | c :: rest =>
    if c = ']' then some ([], rest)
    else (findCloseFrom rest).map (fun sr => (c :: sr.1, sr.2))

/-- The character-class scan of `fnmatch.translate`, applied to the text
following a `[`: skip a leading `!` and a leading `]` before looking for
the closing bracket. -/
def findClose : Str → Option (Str × Str)
  | '!' :: ']' :: rest => (findCloseFrom rest).map (fun sr => ('!' :: ']' :: sr.1, sr.2))
  | '!' :: rest => (findCloseFrom rest).map (fun sr => ('!' :: sr.1, sr.2))
  | ']' :: rest => (findCloseFrom rest).map (fun sr => (']' :: sr.1, sr.2))
  | p => findCloseFrom p

/-- Membership of a character in the body of a character class: `a-b`
ranges (by code point) and literal members, with a hyphen in first or last
position literal, exactly as produced by `fnmatch.translate`. -/
def classMem : Str → Char → Bool
  | [], _ => false
  | a :: '-' :: b :: rest, c => (decide (a ≤ c) && decide (c ≤ b)) || classMem rest c
  | a :: rest, c => (a == c) || classMem rest c

/-- Character-class membership including the leading-`!` negation. -/
def classMatch (stuff : Str) (c : Char) : Bool :=
  match stuff with
  | '!' :: rest => !classMem rest c
  | s => classMem s c

/-- Glob matching of CPython `fnmatch.fnmatchcase`, by recursion on the
pattern; the fuel argument only bounds the recursion and never runs out
when it starts at the pattern length (every recursive call shortens the
pattern). `*` matches any sequence, `?` any single character, `[...]` a
character class; all of them may match `/` and newline. -/
def fnmatchGo : Nat → Str → Str → Bool
  | _, [], name => name.isEmpty
  | 0, _ :: _, _ => false
  | fuel + 1, c :: p, name =>
    if c = '*' then
      name.tails.any (fun suf => fnmatchGo fuel p suf)
    else if c = '[' then
      match findClose p with
      | some sr =>
        match name with
        | [] => false
        | d :: n => classMatch sr.1 d && fnmatchGo fuel sr.2 n
      | none =>
        match name with
        | [] => false
        | d :: n => (d == '[') && fnmatchGo fuel p n
    else if c = '?' then
      match name with
      | [] => false
      | _ :: n => fnmatchGo fuel p n
    else
      match name with
      | [] => false
      | d :: n => (d == c) && fnmatchGo fuel p n

/-- Model of `fnmatch.fnmatch(name, pat)` with POSIX (identity) `normcase`. -/
def fnmatch (name pat : Str) : Bool := fnmatchGo pat.length pat name

/-!  ### Path helpers (POSIX flavour of `os.path`) -/

/-- Python `str.split(sep)` for a single-character separator (keeps empty
chunks). -/
def splitChar (sep : Char) : Str → List Str
  | [] => [[]]
  | c :: rest =>
    if c = sep then [] :: splitChar sep rest
    else
      match splitChar sep rest with
      | [] => [[c]]
      | g :: gs => (c :: g) :: gs

/-- Python `sep.join(chunks)` for a single-character separator. -/
def joinChar (sep : Char) : List Str → Str
  | [] => []
  | [c] => c
  | c :: rest => c ++ sep :: joinChar sep rest

def splitSlash : Str → List Str := splitChar '/'

def joinSlash : List Str → Str := joinChar '/'

/-- The non-empty path components of a path string, as used by
`os.path.relpath`. -/
def comps (s : Str) : List Str := (splitSlash s).filter (fun c => !c.isEmpty)

/-- POSIX `os.path.basename`: everything after the last slash. -/
def basename (s : Str) : Str := (splitSlash s).getLastD []

/-- Length of the element-wise common prefix of two component lists
(as os.path computes the common prefix of two component lists). -/
def commonPrefixLen : List Str → List Str → Nat
  | a :: as, b :: bs => if a = b then commonPrefixLen as bs + 1 else 0
  | _, _ => 0

/-- Model of `os.path.relpath(path, start)` on POSIX for absolute normalized
inputs: strip the common component prefix, go up with `..` for what is
left of `start`, and append the rest of `path`; `"."` when they coincide. -/
def relpath (path start : Str) : Str :=
  let start_list := comps start
  let path_list := comps path
  let i := commonPrefixLen start_list path_list
  let rel_list := List.replicate (start_list.length - i) (chars ("..")) ++ path_list.drop i
  if rel_list.isEmpty then chars (".") else joinSlash rel_list

/-- Model of `pathlib.Path(relative_path).parent.parts`: the components of the
containing directory (`pathlib` drops empty and `"."` components, and
`parent` drops the last remaining one). -/
def parentParts (s : Str) : List Str :=
  ((splitSlash s).filter (fun c => !c.isEmpty && !(c == chars (".")))).dropLast

/-!  ### should_ignore -/

/-- One iteration of the pattern loop of `should_ignore` in
`src/collect.py`: `true` means the iteration hits a `return True`, `false`
means it falls through to the next pattern.  `relative_path` and
`abs_path` are the values computed before the loop; `path_is_dir` models
`os.path.isdir(abs_path)`. -/
def patternMatches (relative_path abs_path : Str) (path_is_dir : Bool) (p_raw : Str) : Bool :=
  let pattern := strip p_raw
  if pattern.isEmpty then false
  else if pattern.head? = some '#' then false
  else if pattern.head? = some '!' then false
  else
    let is_dir_only_pattern := pattern.getLast? == some '/'
    let pattern := if is_dir_only_pattern then pattern.dropLast else pattern
    if pattern.head? = some '/' then
      -- anchored pattern
      let anchored_p := pattern.tail
      if fnmatch relative_path anchored_p then
        !(is_dir_only_pattern && !path_is_dir)
      else
        List.isPrefixOf (anchored_p ++ ['/']) relative_path
    else if pattern.contains '/' then
      -- pattern with an internal slash
      if fnmatch relative_path pattern then
        !(is_dir_only_pattern && !path_is_dir && relative_path == pattern)
      else
        List.isPrefixOf (pattern ++ ['/']) relative_path
    else
      -- simple pattern: basename, then any containing-directory component
      if fnmatch (basename abs_path) pattern then
        !(is_dir_only_pattern && !path_is_dir)
      else
        !relative_path.isEmpty &&
          (parentParts relative_path).any (fun part => fnmatch part pattern)

/-- Embedding of `should_ignore(path_str, patterns, base_directory_str)` from
`src/collect.py`.  `path_is_dir` models the source's
`os.path.isdir(abs_path)` query; both path arguments are assumed absolute
and normalized, so `os.path.abspath` is the identity on them and
`os.sep = '/'` makes the separator replacement the identity. -/
def should_ignore (path_str : Str) (patterns : List Str) (base_directory_str : Str)
    (path_is_dir : Bool) : Bool :=
  if patterns.isEmpty then false
  else
    let abs_path := path_str
    let abs_base_directory := base_directory_str
    if !(List.isPrefixOf abs_base_directory abs_path) then false
    else
      let relative_path := relpath abs_path abs_base_directory
      if relative_path = chars (".") then false
      else
        patterns.any (fun p_raw => patternMatches relative_path abs_path path_is_dir p_raw)

/-!  ### Filesystem model

A directory entry is either a regular file or a directory with an ordered
listing (the order `os.scandir`/`os.listdir` would produce before
sorting).  A file carries the verdict of the external binary classifier
`is_binary_file` and the outcome of reading it in text mode with
`errors='replace'`: either the decoded content or the message of the
raised exception.  Directory listings are assumed readable (the
`PermissionError` marker lines of the tree renderer are outside the
claims).  -/

inductive FSEntry : Type where
  | file (binary : Bool) (readResult : Except Str Str) : FSEntry
  | dir (entries : List (Str × FSEntry)) : FSEntry

instance : Inhabited FSEntry := ⟨FSEntry.dir []⟩

def isDirE : FSEntry → Bool
  | .dir _ => true
  | .file _ _ => false

/-- Find the entry with the given name in a directory listing. -/
def lookupEntry (n : Str) : List (Str × FSEntry) → Option FSEntry
  | [] => none
  | (m, e) :: rest => if m = n then some e else lookupEntry n rest

/-- Resolve an (absolute, normalized) path, given as its component list,
against the filesystem root. `none` models a path that is neither a file
nor a directory. -/
def resolve : FSEntry → List Str → Option FSEntry
  | e, [] => some e
  | .dir entries, n :: rest =>
    (match lookupEntry n entries with
     | some e => resolve e rest
     | none => none)
  | .file _ _, _ :: _ => none

/-- The line loop of `get_gitignore_patterns`: strip each line, keep the
non-empty non-comment ones, in order. -/
def parsePatternLines (content : Str) : List Str :=
  ((splitChar '\n' content).map strip).filter
    (fun line => !line.isEmpty && !(line.head? = some '#'))

/-- Embedding of `get_gitignore_patterns(directory)` from `src/collect.py`, reading the
`.gitignore` entry of the given directory listing.  A missing file, a
directory of that name (`IsADirectoryError` is an `IOError`), or a read
error all yield the empty pattern list. -/
def get_gitignore_patterns (entries : List (Str × FSEntry)) : List Str :=
  match lookupEntry (chars (".gitignore")) entries with
  | some (.file _ (.ok content)) => parsePatternLines content
  | _ => []

/-!  ### Content walker (`process_directory`, directory branch) -/

/-- The `'=' * 80` delimiter line of a content block. -/
def delim : Str := List.replicate 80 '='

/-- The body of `for file_name in files` in `process_directory`, for one
entry of the current directory's listing (directory entries are listed
under `dirs`, not `files`, hence contribute nothing here). -/
def fileOut (ps : List Str) (base cur n : Str) : FSEntry → Str
  | .dir _ => []
  | .file binary rd =>
    let file_path := cur ++ '/' :: n
    if should_ignore file_path ps base false then []
    else if (n.head? == some '.') || binary then []
    else
      match rd with
      | .ok content =>
        if (strip content).isEmpty then []
        else
          let rel_path := relpath file_path base
          '\n' :: delim ++ '\n' :: chars ("File: ") ++ rel_path ++
            '\n' :: delim ++ '\n' :: content ++ ['\n']
      | .error e =>
        let rel_path := relpath file_path base
        '\n' :: delim ++ '\n' :: chars ("File: ") ++ rel_path ++
          '\n' :: delim ++ '\n' :: chars ("Error reading file: ") ++ e ++ ['\n']

/-- Output of the file loop for a whole directory listing. -/
def filesPart (ps : List Str) (base cur : Str) : List (Str × FSEntry) → Str
  | [] => []
  | (n, e) :: rest => fileOut ps base cur n e ++ filesPart ps base cur rest

mutual

/-- Model of `os.walk(abs_directory_path, topdown=True)` combined with the body of
the walk loop in `process_directory`: the files of the current directory
first, then the kept (non-ignored, non-hidden) subdirectories depth-first
in listing order. -/
def walkFrom (ps : List Str) (base cur : Str) : FSEntry → Str
  | .file _ _ => []
  | .dir entries => filesPart ps base cur entries ++ walkSubs ps base cur entries

/-- The pruning loop over `dirs` followed by the recursive walk into the
kept subdirectories. -/
def walkSubs (ps : List Str) (base cur : Str) : List (Str × FSEntry) → Str
  | [] => []
  | (n, e) :: rest =>
    (if isDirE e && !should_ignore (cur ++ '/' :: n) ps base true && !(n.head? == some '.')
     then walkFrom ps base (cur ++ '/' :: n) e
     else []) ++ walkSubs ps base cur rest

end

/-!  ### Tree renderer (`get_directory_tree`) -/

/-- Lexicographic string comparison by code point, as Python `sorted` uses
on strings. -/
def strLe (a b : Str) : Bool :=
  match a, b with
  | [], _ => true
  | _ :: _, [] => false
  | c :: a', d :: b' => if c = d then strLe a' b' else decide (c < d)

def insertByName (x : Str × FSEntry) : List (Str × FSEntry) → List (Str × FSEntry)
  | [] => [x]
  | y :: rest => if strLe x.1 y.1 then x :: y :: rest else y :: insertByName x rest

/-- Python `sorted(os.listdir(...))`, keeping each name's entry attached. -/
def sortEntries (l : List (Str × FSEntry)) : List (Str × FSEntry) :=
  l.foldr insertByName []

theorem sizeOf_insertByName (x : Str × FSEntry) (l : List (Str × FSEntry)) :
    sizeOf (insertByName x l) = 1 + sizeOf x + sizeOf l := by
  induction l with
  | nil => simp [insertByName]
  | cons y rest ih =>
    by_cases h : strLe x.1 y.1 = true
    · simp [insertByName, h]
      try omega
    · simp [insertByName, h, ih]
      try omega

theorem sizeOf_sortEntries (l : List (Str × FSEntry)) :
    sizeOf (sortEntries l) = sizeOf l := by
  induction l with
  | nil => rfl
  | cons x rest ih =>
    show sizeOf (insertByName x (sortEntries rest)) = _
    rw [sizeOf_insertByName, ih]
    simp
    try omega

theorem sizeOf_filter_le (p : Str × FSEntry → Bool) (l : List (Str × FSEntry)) :
    sizeOf (l.filter p) ≤ sizeOf l := by
  induction l with
  | nil => simp
  | cons x rest ih =>
    by_cases h : p x = true
    · simp [List.filter_cons, h]; omega
    · simp only [List.filter_cons, h]
      simp only [Bool.false_eq_true, if_false, List.cons.sizeOf_spec]
      have : 0 ≤ sizeOf x := by positivity
      omega

def branchGlyph (isLast : Bool) : Str :=
  if isLast then chars ("└── ") else chars ("├── ")

def indentGlyph (isLast : Bool) : Str :=
  if isLast then chars ("    ") else chars ("│   ")

mutual

/-- The recursive `print_tree` of `get_directory_tree`, producing the
lines for the contents of one directory.  The source threads its growing
line prefix down the recursion as a parameter; here each level renders its
subtree with an empty local prefix and the parent prepends its indent
glyph to every line of the subtree, which produces the same lines. -/
def treeChildren (ps : List Str) (base cur : Str) : FSEntry → List Str
  | .file _ _ => []
  | .dir entries =>
    treeItems ps base cur
      ((sortEntries entries).filter
        (fun it => !should_ignore (cur ++ '/' :: it.1) ps base (isDirE it.2)))
  termination_by e => sizeOf e
  decreasing_by
    have h1 := sizeOf_filter_le
      (fun it => !should_ignore (cur ++ '/' :: it.1) ps base (isDirE it.2)) (sortEntries entries)
    have h2 := sizeOf_sortEntries entries
    simp only [FSEntry.dir.sizeOf_spec]
    omega

/-- Render the filtered, sorted items of one directory; the last item gets
the `└── ` branch, the others `├── `.  A directory item is expanded only
when its name does not start with `.`. -/
def treeItems (ps : List Str) (base cur : Str) : List (Str × FSEntry) → List Str
  | [] => []
  | (n, e) :: rest =>
    (branchGlyph rest.isEmpty ++ n) ::
      ((if isDirE e && !(n.head? == some '.')
        then (treeChildren ps base (cur ++ '/' :: n) e).map
          (fun line => indentGlyph rest.isEmpty ++ line)
        else []) ++ treeItems ps base cur rest)
  termination_by l => sizeOf l
  decreasing_by
    all_goals simp only [List.cons.sizeOf_spec, Prod.mk.sizeOf_spec]
    all_goals omega

end

/-- The join with newlines of the root name line and the rendered tree lines. -/
def get_directory_tree (dirAbs : Str) (ps : List Str) (entries : List (Str × FSEntry)) : Str :=
  joinChar '\n' (basename dirAbs :: treeChildren ps dirAbs dirAbs (.dir entries))

/-!  ### process_directory -/

/-- Embedding of `process_directory(directory_path)` from `src/collect.py`, with the
filesystem's answer to the `isdir`/`isfile` checks supplied as the
already-resolved target (`none` models a path that is neither). -/
def process_directory (target : Option FSEntry) (directory_path : Str) : Str :=
  let abs_directory_path := directory_path
  match target with
  | some (.dir entries) =>
    let gitignore_patterns := get_gitignore_patterns entries
    let tree_structure := get_directory_tree abs_directory_path gitignore_patterns entries
    chars ("Directory Structure:\n") ++ tree_structure ++ chars ("\n\nFile Contents:\n") ++
      walkFrom gitignore_patterns abs_directory_path abs_directory_path (.dir entries)
  | some (.file _ rd) =>
    chars ("Processing single file: ") ++ basename abs_directory_path ++ chars ("\n\n") ++
      (match rd with
       | .ok content =>
         delim ++ '\n' :: chars ("File: ") ++ basename abs_directory_path ++
           '\n' :: delim ++ '\n' :: content ++ ['\n']
       | .error e => chars ("Error reading file: ") ++ e ++ ['\n'])
  | none => chars ("Error: ") ++ abs_directory_path ++ chars (" is neither a file nor a directory")

/-- The function `process_directory` invoked on a path resolved against
an explicit filesystem root (the model of the `os.path.isdir` /
`os.path.isfile` dispatch). -/
def collect (root : FSEntry) (path : Str) : Str :=
  process_directory (resolve root (comps path)) path

/-!  ### Observations used by the claims -/

/-- The resolution outcome "regular file whose text read succeeds",
together with its binary-classifier verdict and decoded content. -/
def resolvedFileOk (root : FSEntry) (cs : List Str) : Option (Bool × Str) :=
  match resolve root cs with
  | some (.file b (.ok c)) => some (b, c)
  | _ => none

/-- The resolution outcome "regular file whose read raises", with the
classifier verdict and the exception message. -/
def resolvedFileErr (root : FSEntry) (cs : List Str) : Option (Bool × Str) :=
  match resolve root cs with
  | some (.file b (.error e)) => some (b, e)
  | _ => none

/-- Number of occurrences of `pat` as a contiguous substring of `s`. -/
def occCount (pat s : Str) : Nat :=
  (s.tails.filter (fun t => List.isPrefixOf pat t)).length

/-- A path strictly outside the base directory: neither the base itself
nor a descendant of it, component-wise. -/
def strictlyOutside (p base : Str) : Bool :=
  !(List.isPrefixOf (comps base) (comps p))

/-- The pattern list as `PatternStore` would deliver it: entries stripped,
blank and comment entries removed. -/
def cleansePatterns (ps : List Str) : List Str :=
  (ps.map strip).filter (fun l => !l.isEmpty && !(l.head? = some '#'))

/-- The current path after descending through the named subdirectories. -/
def descPath (cur : Str) (dpath : List Str) : Str :=
  dpath.foldl (fun c d => c ++ '/' :: d) cur

/-- The content block emitted for a file whose read fails, as built by the
error branch of the file loop. -/
def errBlockFor (rel_path emsg : Str) : Str :=
  '\n' :: delim ++ '\n' :: chars ("File: ") ++ rel_path ++
    '\n' :: delim ++ '\n' :: chars ("Error reading file: ") ++ emsg ++ ['\n']

/-- There is a file that the directory walk reaches and keeps, whose read
fails: `dpath` names a chain of non-ignored, non-hidden subdirectories
below `cur`, at whose end the listing holds a non-ignored, non-hidden,
non-binary file `fname` whose read raises with message `emsg`. -/
def reachErrFile (ps : List Str) (base : Str) : Str → FSEntry → List Str → Str → Str → Bool
  | cur, .dir entries, [], fname, emsg =>
    entries.any (fun it =>
      it.1 == fname &&
      (match it.2 with
       | .file b (.error m) =>
         m == emsg && !b && !(it.1.head? == some '.') &&
           !should_ignore (cur ++ '/' :: it.1) ps base false
       | _ => false))
  | cur, .dir entries, d :: rest, fname, emsg =>
    entries.any (fun it =>
      it.1 == d &&
      (match it.2 with
       | .dir sub =>
         !should_ignore (cur ++ '/' :: d) ps base true && !(d.head? == some '.') &&
           reachErrFile ps base (cur ++ '/' :: d) (.dir sub) rest fname emsg
       | _ => false))
  | _, .file _ _, _, _, _ => false

/-!  ## Basic lemmas about the string helpers -/

theorem isPrefixOf_append_self (l m : Str) : List.isPrefixOf l (l ++ m) = true := by
  induction l with
  | nil => simp
  | cons c rest ih => simp [List.isPrefixOf, ih]

theorem dropWhile_idem (p : Char → Bool) (l : Str) :
    (l.dropWhile p).dropWhile p = l.dropWhile p := by
  induction l with
  | nil => rfl
  | cons c t ih =>
    by_cases h : p c = true <;> simp [List.dropWhile_cons, h, ih]

theorem dropTrail_idem (p : Char → Bool) (l : Str) :
    dropTrail p (dropTrail p l) = dropTrail p l := by
  unfold dropTrail
  rw [List.reverse_reverse, dropWhile_idem]

theorem head?_dropWhile_not (p : Char → Bool) (l : Str) (c : Char)
    (h : (l.dropWhile p).head? = some c) : p c = false := by
  induction l with
  | nil => cases h
  | cons a t ih =>
    rw [List.dropWhile_cons] at h
    by_cases ha : p a = true
    · rw [if_pos ha] at h
      exact ih h
    · rw [if_neg ha] at h
      cases h
      simpa using ha

theorem dropTrail_decomp (p : Char → Bool) (l : Str) :
    l = dropTrail p l ++ (l.reverse.takeWhile p).reverse := by
  calc l = l.reverse.reverse := (List.reverse_reverse l).symm
    _ = (l.reverse.takeWhile p ++ l.reverse.dropWhile p).reverse := by
        rw [List.takeWhile_append_dropWhile]
    _ = (l.reverse.dropWhile p).reverse ++ (l.reverse.takeWhile p).reverse := by
        rw [List.reverse_append]
    _ = dropTrail p l ++ (l.reverse.takeWhile p).reverse := rfl

theorem dropTrail_cons (p : Char → Bool) (c : Char) (t : Str) (hc : p c = false) :
    dropTrail p (c :: t) = c :: dropTrail p t := by
  unfold dropTrail
  rw [List.reverse_cons, List.dropWhile_append]
  by_cases h : (t.reverse.dropWhile p).isEmpty
  · have h' : t.reverse.dropWhile p = [] := by simpa using h
    simp [h, h', List.dropWhile_cons, hc]
  · simp [h]

theorem strip_cons_not_space {c : Char} (t : Str) (hc : pyIsSpace c = false) :
    strip (c :: t) = c :: dropTrail pyIsSpace t := by
  unfold strip
  rw [List.dropWhile_cons, if_neg (by simp [hc]), dropTrail_cons _ _ _ hc]

theorem head?_strip (s : Str) (c : Char) (h : (strip s).head? = some c) :
    pyIsSpace c = false := by
  apply head?_dropWhile_not pyIsSpace s c
  have hd := dropTrail_decomp pyIsSpace (s.dropWhile pyIsSpace)
  rw [show dropTrail pyIsSpace (s.dropWhile pyIsSpace) = strip s from rfl] at hd
  cases hs : strip s with
  | nil => rw [hs] at h; cases h
  | cons a t =>
    rw [hs] at h hd
    rw [hd]
    simpa using h

theorem strip_idem (s : Str) : strip (strip s) = strip s := by
  cases hs : strip s with
  | nil => rfl
  | cons d t =>
    have hd : pyIsSpace d = false := head?_strip s d (by rw [hs]; rfl)
    have hfix : dropTrail pyIsSpace (d :: t) = d :: t := by
      have h := dropTrail_idem pyIsSpace (s.dropWhile pyIsSpace)
      rw [show dropTrail pyIsSpace (s.dropWhile pyIsSpace) = strip s from rfl, hs] at h
      exact h
    show strip (d :: t) = d :: t
    rw [strip_cons_not_space t hd]
    exact (dropTrail_cons pyIsSpace d t hd).symm.trans hfix

/-!  ## Lemmas about path splitting and relpath -/

theorem splitChar_ne_nil (sep : Char) (s : Str) : splitChar sep s ≠ [] := by
  induction s with
  | nil => simp [splitChar]
  | cons c t ih =>
    simp only [splitChar]
    by_cases h : c = sep
    · simp [h]
    · rw [if_neg h]
      cases hs : splitChar sep t with
      | nil => simp
      | cons g gs => simp

theorem splitChar_append_sep (sep : Char) (u v : Str) :
    splitChar sep (u ++ sep :: v) = splitChar sep u ++ splitChar sep v := by
  induction u with
  | nil => simp [splitChar]
  | cons c t ih =>
    simp only [List.cons_append, splitChar]
    by_cases h : c = sep
    · simp [h, ih]
    · rw [if_neg h, if_neg h]
      simp only [List.append_eq]
      rw [ih]
      cases hs : splitChar sep t with
      | nil => exact absurd hs (splitChar_ne_nil sep t)
      | cons g gs => simp

theorem splitChar_no_sep (sep : Char) (s : Str) (h : sep ∉ s) : splitChar sep s = [s] := by
  induction s with
  | nil => rfl
  | cons c t ih =>
    have hc : c ≠ sep := fun hcs => h (hcs ▸ List.mem_cons_self c t)
    have ht : sep ∉ t := fun hts => h (List.mem_cons_of_mem c hts)
    simp only [splitChar, if_neg hc, ih ht]

theorem comps_append_cons (b v : Str) : comps (b ++ '/' :: v) = comps b ++ comps v := by
  unfold comps splitSlash
  rw [splitChar_append_sep, List.filter_append]

theorem comps_no_slash (n : Str) (hn : '/' ∉ n) :
    comps n = if n.isEmpty then [] else [n] := by
  unfold comps splitSlash
  rw [splitChar_no_sep _ _ hn]
  cases n with
  | nil => rfl
  | cons c t => simp [List.filter]

theorem commonPrefixLen_append (l m : List Str) : commonPrefixLen l (l ++ m) = l.length := by
  induction l with
  | nil => cases m <;> rfl
  | cons a t ih => simp [commonPrefixLen, ih]

theorem relpath_self (b : Str) : relpath b b = chars (".") := by
  unfold relpath
  have h := commonPrefixLen_append (comps b) []
  rw [List.append_nil] at h
  simp [h]

theorem relpath_append (b v : Str) :
    relpath (b ++ '/' :: v) b =
      if (comps v).isEmpty then chars (".") else joinSlash (comps v) := by
  simp only [relpath, comps_append_cons, commonPrefixLen_append, Nat.sub_self,
    List.replicate_zero, List.nil_append, List.drop_left]

theorem parentParts_no_slash (n : Str) (hn : '/' ∉ n) : parentParts n = [] := by
  unfold parentParts splitSlash
  rw [splitChar_no_sep _ _ hn]
  by_cases h : (!n.isEmpty && !(n == chars ("."))) = true <;> simp [List.filter, h]

/-!  ## Literal glob patterns -/

/-- A pattern with none of the glob metacharacters. -/
@[reducible] def noMeta (p : Str) : Prop := '*' ∉ p ∧ '?' ∉ p ∧ '[' ∉ p

theorem fnmatchGo_literal (p : Str) :
    ∀ fuel, p.length ≤ fuel → noMeta p → ∀ name, fnmatchGo fuel p name = (name == p) := by
  induction p with
  | nil =>
    intro fuel _ _ name
    cases fuel <;> cases name <;> rfl
  | cons c p ih =>
    intro fuel hf hm name
    obtain ⟨fuel, rfl⟩ : ∃ f, fuel = f + 1 := ⟨fuel - 1, by simp at hf; omega⟩
    have hc1 : ¬(c = '*') := fun h => hm.1 (h ▸ List.mem_cons_self c p)
    have hc2 : ¬(c = '[') := fun h => hm.2.2 (h ▸ List.mem_cons_self c p)
    have hc3 : ¬(c = '?') := fun h => hm.2.1 (h ▸ List.mem_cons_self c p)
    have hm' : noMeta p :=
      ⟨fun h => hm.1 (List.mem_cons_of_mem c h),
       fun h => hm.2.1 (List.mem_cons_of_mem c h),
       fun h => hm.2.2 (List.mem_cons_of_mem c h)⟩
    simp only [fnmatchGo, if_neg hc1, if_neg hc2, if_neg hc3]
    cases name with
    | nil => rfl
    | cons d n =>
      show (d == c && fnmatchGo fuel p n) = ((d :: n : Str) == c :: p)
      rw [ih fuel (by simp at hf; omega) hm' n]
      rfl

theorem fnmatch_literal (name p : Str) (hm : noMeta p) : fnmatch name p = (name == p) :=
  fnmatchGo_literal p p.length (Nat.le_refl _) hm name

/-!  ## The unconditional form of should_ignore -/

theorem should_ignore_eq (p : Str) (ps : List Str) (b : Str) (d : Bool) :
    should_ignore p ps b d =
      (List.isPrefixOf b p && !(relpath p b == chars (".")) &&
        ps.any (fun q => patternMatches (relpath p b) p d q)) := by
  cases ps with
  | nil => simp [should_ignore]
  | cons q rest =>
    unfold should_ignore
    by_cases h1 : List.isPrefixOf b p = true
    · by_cases h2 : relpath p b = chars (".")
      · simp [h1, h2]
      · simp [h1, h2]
    · have h1' : List.isPrefixOf b p = false := Bool.eq_false_iff.mpr h1
      simp [h1']

/-!  ## Claim theorems -/

/-- Claim C6: `should_ignore` called on the traversal root itself returns
`false` for every pattern list: the root is never self-ignored. -/
theorem root_never_self_ignored (base : Str) (patterns : List Str) (d : Bool) :
    should_ignore base patterns base d = false := by
  rw [should_ignore_eq, relpath_self]
  simp

theorem patternMatches_empty (rel ap : Str) (d : Bool) (q : Str) (h : strip q = []) :
    patternMatches rel ap d q = false := by
  simp [patternMatches, h]

theorem patternMatches_hash (rel ap : Str) (d : Bool) (q : Str)
    (h : (strip q).head? = some '#') : patternMatches rel ap d q = false := by
  have hne : (strip q).isEmpty = false := by
    cases hs : strip q with
    | nil => rw [hs] at h; cases h
    | cons a t => rfl
  simp [patternMatches, hne, h]

theorem patternMatches_bang (rel ap : Str) (d : Bool) (q : Str)
    (h : (strip q).head? = some '!') : patternMatches rel ap d q = false := by
  have hne : (strip q).isEmpty = false := by
    cases hs : strip q with
    | nil => rw [hs] at h; cases h
    | cons a t => rfl
  simp [patternMatches, hne, h]

theorem patternMatches_strip (rel ap : Str) (d : Bool) (q : Str) :
    patternMatches rel ap d (strip q) = patternMatches rel ap d q := by
  simp only [patternMatches, strip_idem]

theorem cleanse_cons (q : Str) (rest : List Str) :
    cleansePatterns (q :: rest) =
      if (strip q).isEmpty = true then cleansePatterns rest
      else if (strip q).head? = some '#' then cleansePatterns rest
      else strip q :: cleansePatterns rest := by
  unfold cleansePatterns
  simp only [List.map_cons, List.filter_cons]
  by_cases h1 : (strip q).isEmpty = true
  · simp [h1]
  · by_cases h2 : (strip q).head? = some '#'
    · simp [h1, h2]
    · simp [h1, h2]

theorem any_cleanse (rel ap : Str) (d : Bool) (ps : List Str) :
    ps.any (fun q => patternMatches rel ap d q) =
      (cleansePatterns ps).any (fun q => patternMatches rel ap d q) := by
  induction ps with
  | nil => rfl
  | cons q rest ih =>
    rw [List.any_cons, cleanse_cons]
    by_cases h1 : (strip q).isEmpty = true
    · rw [if_pos h1, patternMatches_empty rel ap d q (by simpa using h1), ih]
      simp
    · rw [if_neg h1]
      by_cases h2 : (strip q).head? = some '#'
      · rw [if_pos h2, patternMatches_hash rel ap d q h2, ih]
        simp
      · rw [if_neg h2, List.any_cons, patternMatches_strip, ih]

/-- Claim C10: the matcher re-strips and re-filters its pattern list, so
its result is unchanged when blank entries, comment entries and
surrounding whitespace are removed up front. -/
theorem matcher_prefilters_itself (path base : Str) (d : Bool) (ps : List Str) :
    should_ignore path ps base d = should_ignore path (cleansePatterns ps) base d := by
  rw [should_ignore_eq, should_ignore_eq, any_cleanse]

/-- Claim C5: inserting a pattern that begins with `!` anywhere in the
list leaves the matcher's verdict unchanged — negated patterns are parsed
but never applied. -/
theorem negated_patterns_no_effect (path base : Str) (d : Bool) (l1 l2 : List Str)
    (q : Str) (hq : q.head? = some '!') :
    should_ignore path (l1 ++ q :: l2) base d = should_ignore path (l1 ++ l2) base d := by
  rw [should_ignore_eq, should_ignore_eq]
  have hbang : patternMatches (relpath path base) path d q = false := by
    obtain ⟨t, rfl⟩ : ∃ t, q = '!' :: t := by
      cases q with
      | nil => cases hq
      | cons a t => cases hq; exact ⟨t, rfl⟩
    apply patternMatches_bang
    rw [strip_cons_not_space t (by decide)]
    rfl
  simp [List.any_append, hbang]

/-- Witness for C5 at a concrete input: inserting `!x` after `x` does not
change the (positive) verdict on `/r/x`. -/
theorem negated_patterns_no_effect_witness :
    (chars ("!x")).head? = some '!' ∧
      should_ignore (chars ("/r/x")) ([chars ("x")] ++ chars ("!x") :: []) (chars ("/r")) false =
        should_ignore (chars ("/r/x")) ([chars ("x")] ++ []) (chars ("/r")) false :=
  ⟨by decide,
    negated_patterns_no_effect (chars ("/r/x")) (chars ("/r")) false
      [chars ("x")] [] (chars ("!x")) (by decide)⟩

/-- Claim C1 (exhibit of the divergence): the path `/base2/x` lies
strictly outside the base directory `/base`, yet `should_ignore` reports
it ignored under the pattern `*`, because the scope check
`abs_path.startswith(abs_base_directory)` is a plain string prefix test
that does not require a separator boundary. -/
theorem outside_path_ignored_bug :
    strictlyOutside (chars ("/base2/x")) (chars ("/base")) = true ∧
      should_ignore (chars ("/base2/x")) [chars ("*")] (chars ("/base")) false = true := by
  constructor
  · decide
  · decide

/-!  ## Directory-only patterns (claim C2) -/

theorem dropTrail_concat (p : Char → Bool) (l : Str) (c : Char) (hc : p c = false) :
    dropTrail p (l ++ [c]) = l ++ [c] := by
  unfold dropTrail
  rw [List.reverse_append]
  simp [List.dropWhile_cons, hc]

theorem strip_append_slash (n : Str) :
    strip (n ++ ['/']) = n.dropWhile pyIsSpace ++ ['/'] := by
  unfold strip
  rw [List.dropWhile_append]
  by_cases h : (n.dropWhile pyIsSpace).isEmpty
  · have h' : n.dropWhile pyIsSpace = [] := by simpa using h
    rw [if_pos h, h']
    have hdw : List.dropWhile pyIsSpace ['/'] = ['/'] := by decide
    rw [hdw]
    simpa using dropTrail_concat pyIsSpace [] '/' (by decide)
  · rw [if_neg h]
    exact dropTrail_concat pyIsSpace _ '/' (by decide)

theorem contains_false_of_not_mem {c : Char} {l : Str} (h : c ∉ l) : l.contains c = false := by
  induction l with
  | nil => rfl
  | cons a t ih =>
    have ha : ¬(c = a) := fun hh => h (hh ▸ List.mem_cons_self a t)
    have ht : c ∉ t := fun hh => h (List.mem_cons_of_mem a hh)
    simpa [List.contains_cons, ha] using ih ht

/-- The heart of claim C2's amendment: a directory-only pattern built from
a slash-free `name` never fires on a non-directory candidate whose
relative path is `name` itself (the basename match is blocked by the
`isDirOnly` check, and `name` has no containing-directory components). -/
theorem patternMatches_dir_only_simple (ap name : Str) (hn : '/' ∉ name) :
    patternMatches name ap false (name ++ ['/']) = false := by
  have hsub : ∀ c, c ∈ name.dropWhile pyIsSpace → c ∈ name := fun c hc =>
    (List.dropWhile_sublist pyIsSpace).subset hc
  cases hm0 : name.dropWhile pyIsSpace with
  | nil =>
    simp only [patternMatches, strip_append_slash, hm0, List.nil_append]
    simp [parentParts_no_slash name hn]
  | cons c t =>
    have hc_mem : c ∈ name := hsub c (by rw [hm0]; exact List.mem_cons_self c t)
    have hcslash : ¬(c = '/') := fun h => hn (h ▸ hc_mem)
    by_cases hc1 : c = '#'
    · apply patternMatches_hash
      rw [strip_append_slash, hm0, hc1]
      rfl
    · by_cases hc2 : c = '!'
      · apply patternMatches_bang
        rw [strip_append_slash, hm0, hc2]
        rfl
      · have hlast : ((c :: (t ++ ['/'])).getLast? == some '/') = true := by
          rw [← List.cons_append, List.getLast?_concat]
          rfl
        have hpat : (c :: (t ++ ['/'])).dropLast = c :: t := by
          rw [← List.cons_append]
          exact List.dropLast_concat
        have h6 : (c :: t).contains '/' = false := by
          apply contains_false_of_not_mem
          intro hmem
          rcases List.mem_cons.mp hmem with h | h
          · exact hcslash h.symm
          · exact hn (hsub '/' (by rw [hm0]; exact List.mem_cons_of_mem c h))
        have hpp : parentParts name = [] := parentParts_no_slash name hn
        have hmt : ¬('/' ∈ t) := fun h =>
          hn (hsub '/' (by rw [hm0]; exact List.mem_cons_of_mem c h))
        have hcs' : ¬('/' = c) := fun h => hcslash h.symm
        simp only [patternMatches, strip_append_slash, hm0, List.cons_append, hlast, hpat,
          List.isEmpty_cons, List.head?_cons]
        cases hfb : fnmatch (basename ap) (c :: t) <;>
          simp [hc1, hc2, hcslash, h6, hpp, hfb, hcs', hmt]

theorem comps_single (name : Str) (hn : '/' ∉ name) (hne : name ≠ []) :
    comps name = [name] := by
  rw [comps_no_slash name hn]
  cases name with
  | nil => exact absurd rfl hne
  | cons c t => rfl

/-- Claim C2, counterexample to the claim as stated: the directory-only
pattern `build/` makes `should_ignore` report `true` for the
non-directory candidate `/repo/build/a.txt` (the file lies inside a
directory matching the pattern). -/
theorem dir_only_ignores_file_inside_matching_dir :
    should_ignore (chars ("/repo/build/a.txt")) [chars ("build/")] (chars ("/repo")) false
      = true := by decide

/-- Claim C2 (amended): a directory-only pattern `name/` (slash-free
`name`) never causes a plain file at relative path `name` itself to be
ignored; only candidates lying below a directory matching the pattern can
be affected. -/
theorem dir_only_pattern_spares_plain_file (base name : Str) (hn : '/' ∉ name) :
    should_ignore (base ++ '/' :: name) [name ++ ['/']] base false = false := by
  rw [should_ignore_eq, relpath_append]
  by_cases h0 : (comps name).isEmpty = true
  · simp [h0]
  · rw [if_neg h0]
    have hne : name ≠ [] := by
      intro h
      rw [h] at h0
      exact h0 rfl
    rw [comps_single name hn hne]
    rw [show joinSlash [name] = name from rfl]
    by_cases hdot : name = chars (".")
    · simp [hdot]
    · simp only [List.any_cons, List.any_nil, Bool.or_false]
      rw [patternMatches_dir_only_simple (base ++ '/' :: name) name hn]
      simp

/-- Witness for the amended C2 at a concrete input: pattern `build/` does
not ignore a plain file named `build` at the top of the tree. -/
theorem dir_only_pattern_spares_plain_file_witness :
    '/' ∉ chars ("build") ∧
      should_ignore (chars ("/repo") ++ '/' :: chars ("build"))
        [chars ("build") ++ ['/']] (chars ("/repo")) false = false :=
  ⟨by decide, dir_only_pattern_spares_plain_file (chars ("/repo")) (chars ("build")) (by decide)⟩

/-!  ## Simple (slash-free) literal patterns and component matching (claim C7) -/

theorem basename_append (u v : Str) : basename (u ++ '/' :: v) = basename v := by
  unfold basename splitSlash
  rw [splitChar_append_sep, List.getLastD_eq_getLast?, List.getLastD_eq_getLast?,
    List.getLast?_append]
  cases hs : splitChar '/' v with
  | nil => exact absurd hs (splitChar_ne_nil '/' v)
  | cons g gs =>
    cases hg : (g :: gs).getLast? with
    | none => simp at hg
    | some a => simp [hg]

theorem isEmpty_false_of_ne_nil {x : Str} (h : x ≠ []) : x.isEmpty = false := by
  cases x with
  | nil => exact absurd rfl h
  | cons c t => rfl

/-- For a kept (non-blank, non-comment, non-negated), already-stripped,
slash-free, metacharacter-free pattern `x` and a non-directory candidate,
one loop iteration reduces to: basename equality or a containing-directory
component equal to `x`. -/
theorem patternMatches_simple_literal (rel ap x : Str)
    (hslash : '/' ∉ x) (hmeta : noMeta x) (hne : x ≠ [])
    (hhash : ¬(x.head? = some '#')) (hbang : ¬(x.head? = some '!'))
    (hstrip : strip x = x) :
    patternMatches rel ap false x =
      ((basename ap == x) ||
        (!rel.isEmpty && (parentParts rel).any (fun part => part == x))) := by
  have hiE : x.isEmpty = false := isEmpty_false_of_ne_nil hne
  have hlast : (x.getLast? == some '/') = false := by
    cases hg : x.getLast? with
    | none => rfl
    | some a =>
      have ha : a ∈ x := List.mem_of_getLast?_eq_some hg
      have : ¬(a = '/') := fun h => hslash (h ▸ ha)
      simp [this]
  have hheadslash : ¬(x.head? = some '/') := by
    cases x with
    | nil => simp
    | cons c t =>
      rw [List.head?_cons]
      intro h
      injection h with h'
      exact hslash (h' ▸ List.mem_cons_self c t)
  have hcont : x.contains '/' = false := contains_false_of_not_mem hslash
  have hfl : ∀ nm, fnmatch nm x = (nm == x) := fun nm => fnmatch_literal nm x hmeta
  simp only [patternMatches, hstrip]
  rw [if_neg (by simp [hiE]), if_neg hhash, if_neg hbang]
  simp only [hlast, Bool.false_eq_true, if_false]
  rw [if_neg hheadslash]
  simp only [hcont, Bool.false_eq_true, if_false]
  simp only [hfl]
  cases hba : (basename ap == x) <;> simp [hba]

/-- Claim C7, counterexample to the claim as stated: for the slash-free,
non-anchored pattern `*`, the file at relative path `a*/b.txt` IS ignored
(`*` glob-matches the basename), although the claim promises `false` for
every such pattern at `ax/b.txt`. -/
theorem component_match_counterexample :
    should_ignore (chars ("/repo/a*/b.txt")) [chars ("*")] (chars ("/repo")) false = true := by
  decide

/-- Claim C7 (amended): for a non-anchored, slash-free pattern `x` that is
additionally literal (no `*`, `?`, `[` metacharacters), non-blank, not a
comment or negation, already stripped, and distinct from `b.txt` and `.`,
the file at relative path `a/x/b.txt` is ignored via the directory
component `x`, while the file at relative path `ax/b.txt` is not. -/
theorem literal_component_match (x : Str)
    (hslash : '/' ∉ x) (hmeta : noMeta x) (hne : x ≠ [])
    (hhash : ¬(x.head? = some '#')) (hbang : ¬(x.head? = some '!'))
    (hstrip : strip x = x) (hbt : ¬(x = chars ("b.txt"))) (hdot : ¬(x = chars ("."))) :
    should_ignore (chars ("/repo") ++ '/' :: (chars ("a") ++ '/' :: (x ++ '/' :: chars ("b.txt"))))
        [x] (chars ("/repo")) false = true ∧
      should_ignore (chars ("/repo") ++ '/' :: ((chars ("a") ++ x) ++ '/' :: chars ("b.txt")))
        [x] (chars ("/repo")) false = false := by
  have hiE : x.isEmpty = false := isEmpty_false_of_ne_nil hne
  have hxb : (chars ("b.txt") == x) = false :=
    beq_eq_false_iff_ne.mpr (fun h => hbt h.symm)
  have hxx : (x == x) = true := by simp
  have hkeep : (!x.isEmpty && !(x == chars ("."))) = true := by
    simp [hiE, hdot]
  constructor
  · -- a/x/b.txt is ignored: component match on x
    rw [should_ignore_eq, relpath_append]
    have hcv : comps (chars ("a") ++ '/' :: (x ++ '/' :: chars ("b.txt"))) =
        chars ("a") :: x :: [chars ("b.txt")] := by
      rw [comps_append_cons, comps_append_cons, comps_single x hslash hne]
      rfl
    rw [hcv]
    rw [if_neg (by simp)]
    have hj : joinSlash (chars ("a") :: x :: [chars ("b.txt")]) =
        chars ("a") ++ '/' :: (x ++ '/' :: chars ("b.txt")) := by
      simp [joinSlash, joinChar]
    rw [hj]
    have hbn : basename (chars ("/repo") ++ '/' ::
        (chars ("a") ++ '/' :: (x ++ '/' :: chars ("b.txt")))) = chars ("b.txt") := by
      rw [basename_append, basename_append, basename_append]
      rfl
    have hpp : parentParts (chars ("a") ++ '/' :: (x ++ '/' :: chars ("b.txt"))) =
        [chars ("a"), x] := by
      unfold parentParts splitSlash
      rw [splitChar_append_sep, splitChar_append_sep, splitChar_no_sep '/' x hslash]
      simp [List.filter, hkeep, List.dropLast]
      rfl
    have hrelne : ¬(chars ("a") ++ '/' :: (x ++ '/' :: chars ("b.txt")) = chars (".")) := by
      intro h
      have h0 := congrArg List.head? h
      rw [show (chars ("a") ++ '/' :: (x ++ '/' :: chars ("b.txt"))).head? = some 'a' from rfl]
        at h0
      exact absurd (by simpa using h0) (by decide)
    have hieRel : (chars ("a") ++ '/' :: (x ++ '/' :: chars ("b.txt"))).isEmpty = false := rfl
    rw [List.any_cons, List.any_nil,
      patternMatches_simple_literal _ _ x hslash hmeta hne hhash hbang hstrip, hbn, hpp]
    simp [isPrefixOf_append_self, hxb, hxx, hrelne, hieRel]
  · -- ax/b.txt is not ignored
    rw [should_ignore_eq, relpath_append]
    have hax_ne : chars ("a") ++ x ≠ [] := fun h =>
      absurd (List.append_eq_nil.mp h).1 (by decide)
    have hax_slash : '/' ∉ chars ("a") ++ x := by
      intro h
      rcases List.mem_append.mp h with h | h
      · exact absurd h (by decide)
      · exact hslash h
    have hcv : comps ((chars ("a") ++ x) ++ '/' :: chars ("b.txt")) =
        (chars ("a") ++ x) :: [chars ("b.txt")] := by
      rw [comps_append_cons, comps_single _ hax_slash hax_ne]
      rfl
    rw [hcv]
    rw [if_neg (by simp)]
    have hj : joinSlash ((chars ("a") ++ x) :: [chars ("b.txt")]) =
        (chars ("a") ++ x) ++ '/' :: chars ("b.txt") := by
      simp [joinSlash, joinChar]
    rw [hj]
    have hbn : basename (chars ("/repo") ++ '/' ::
        ((chars ("a") ++ x) ++ '/' :: chars ("b.txt"))) = chars ("b.txt") := by
      rw [basename_append, basename_append]
      rfl
    have haxdot : ¬(chars ("a") ++ x = chars (".")) := by
      intro h
      have h0 := congrArg List.head? h
      rw [show (chars ("a") ++ x).head? = some 'a' from rfl] at h0
      exact absurd (by simpa using h0) (by decide)
    have hkeep2 : (!(chars ("a") ++ x).isEmpty && !((chars ("a") ++ x) == chars ("."))) = true := by
      simp [isEmpty_false_of_ne_nil hax_ne, haxdot]
    have hpp : parentParts ((chars ("a") ++ x) ++ '/' :: chars ("b.txt")) =
        [chars ("a") ++ x] := by
      unfold parentParts splitSlash
      rw [splitChar_append_sep, splitChar_no_sep '/' _ hax_slash]
      simp [List.filter, hkeep2, List.dropLast]
    have hax_x : ((chars ("a") ++ x) == x) = false := by
      apply beq_eq_false_iff_ne.mpr
      intro h
      have hlenEq := congrArg List.length h
      rw [List.length_append] at hlenEq
      rw [show (chars ("a")).length = 1 from rfl] at hlenEq
      omega
    have hrelne : ¬((chars ("a") ++ x) ++ '/' :: chars ("b.txt") = chars (".")) := by
      intro h
      have h0 := congrArg List.head? h
      rw [show ((chars ("a") ++ x) ++ '/' :: chars ("b.txt")).head? = some 'a' from rfl] at h0
      exact absurd (by simpa using h0) (by decide)
    rw [List.any_cons, List.any_nil,
      patternMatches_simple_literal _ _ x hslash hmeta hne hhash hbang hstrip, hbn, hpp]
    simp [hxb, hax_x, hrelne]

/-- Witness for the amended C7 at the concrete pattern `node_modules`. -/
theorem literal_component_match_witness :
    ('/' ∉ chars ("node_modules") ∧ noMeta (chars ("node_modules")) ∧
        chars ("node_modules") ≠ [] ∧ strip (chars ("node_modules")) = chars ("node_modules")) ∧
      should_ignore (chars ("/repo") ++ '/' ::
          (chars ("a") ++ '/' :: (chars ("node_modules") ++ '/' :: chars ("b.txt"))))
        [chars ("node_modules")] (chars ("/repo")) false = true ∧
      should_ignore (chars ("/repo") ++ '/' ::
          ((chars ("a") ++ chars ("node_modules")) ++ '/' :: chars ("b.txt")))
        [chars ("node_modules")] (chars ("/repo")) false = false :=
  ⟨⟨by decide, by decide, by decide, by decide⟩,
    literal_component_match (chars ("node_modules")) (by decide) (by decide) (by decide)
      (by decide) (by decide) (by decide) (by decide) (by decide)⟩

/-!  ## Single-file mode and the invalid-root case (claims C4, C8, C9) -/

theorem resolve_of_fileOk {root : FSEntry} {cs : List Str} {b : Bool} {c : Str}
    (h : resolvedFileOk root cs = some (b, c)) :
    resolve root cs = some (.file b (.ok c)) := by
  unfold resolvedFileOk at h
  cases hr : resolve root cs with
  | none => rw [hr] at h; cases h
  | some e =>
    cases e with
    | dir entries => rw [hr] at h; cases h
    | file b' rd =>
      cases rd with
      | ok c' =>
        rw [hr] at h
        simp only [Option.some.injEq, Prod.mk.injEq] at h
        rw [h.1, h.2]
      | error e' => rw [hr] at h; cases h

/-- Claim C8: when the input path resolves to neither a file nor a
directory, the whole report is exactly the top-level error string — no
tree section and no content blocks. -/
theorem invalid_root_error_report (root : FSEntry) (p : Str)
    (h : (resolve root (comps p)).isNone = true) :
    collect root p = chars ("Error: ") ++ p ++ chars (" is neither a file nor a directory") := by
  unfold collect process_directory
  cases hr : resolve root (comps p) with
  | none => rfl
  | some e => rw [hr] at h; cases h

/-- Witness for C8 at a concrete input. -/
theorem invalid_root_error_report_witness :
    (resolve (.dir []) (comps (chars ("/x")))).isNone = true ∧
      collect (.dir []) (chars ("/x")) =
        chars ("Error: ") ++ chars ("/x") ++ chars (" is neither a file nor a directory") :=
  ⟨by decide, invalid_root_error_report (.dir []) (chars ("/x")) (by decide)⟩

/-- Claim C4, counterexample to the claim as stated: a regular file whose
read raises produces a report with NO content block at all (the header
plus a bare error line), not exactly one. The marker counted here is the
start of a content block: the 80-`=` delimiter line followed by a
`File: ` line. -/
theorem single_file_read_error_no_block :
    occCount (delim ++ '\n' :: chars ("File: "))
      (collect (.dir [(chars ("f"), .file false (.error (chars ("boom"))))]) (chars ("/f")))
      = 0 := by decide

/-- Claim C4 (amended): for a regular file whose content read succeeds,
the report is exactly the single-file header plus one content block — in
particular it has no tree section — and the report depends only on the
resolved file, not on any ignore file elsewhere in the filesystem. A
file whose read fails instead yields the header plus an error line (no
content block, see the counterexample). -/
theorem single_file_one_block (root : FSEntry) (p : Str) (b : Bool) (c : Str)
    (h : resolvedFileOk root (comps p) = some (b, c)) :
    collect root p =
      chars ("Processing single file: ") ++ basename p ++ chars ("\n\n") ++
        (delim ++ '\n' :: chars ("File: ") ++ basename p ++ '\n' :: delim ++ '\n' :: c ++ ['\n']) ∧
    ∀ root' : FSEntry, resolvedFileOk root' (comps p) = some (b, c) →
      collect root' p = collect root p := by
  have hres := resolve_of_fileOk h
  constructor
  · unfold collect process_directory
    rw [hres]
  · intro root' h'
    have hres' := resolve_of_fileOk h'
    unfold collect
    rw [hres, hres']

/-- Witness for the amended C4 at a concrete input. -/
theorem single_file_one_block_witness :
    (resolvedFileOk (.dir [(chars ("f"), .file false (.ok (chars ("hi"))))])
        (comps (chars ("/f"))) = some (false, chars ("hi"))) ∧
      (collect (.dir [(chars ("f"), .file false (.ok (chars ("hi"))))]) (chars ("/f")) =
        chars ("Processing single file: ") ++ basename (chars ("/f")) ++ chars ("\n\n") ++
          (delim ++ '\n' :: chars ("File: ") ++ basename (chars ("/f")) ++ '\n' :: delim ++
            '\n' :: chars ("hi") ++ ['\n']) ∧
        ∀ root' : FSEntry,
          resolvedFileOk root' (comps (chars ("/f"))) = some (false, chars ("hi")) →
            collect root' (chars ("/f")) =
              collect (.dir [(chars ("f"), .file false (.ok (chars ("hi"))))]) (chars ("/f"))) :=
  ⟨by decide,
    single_file_one_block (.dir [(chars ("f"), .file false (.ok (chars ("hi"))))])
      (chars ("/f")) false (chars ("hi")) (by decide)⟩

/-- Claim C9: single-file mode applies neither the binary classifier nor
the empty/whitespace filter — any file whose read succeeds gets a content
block, whatever its classifier verdict or content — although the same
file would be dropped by the directory walk (a binary-classified file
contributes nothing, and neither does a whitespace-only one). -/
theorem single_file_skips_filters :
    (∀ (root : FSEntry) (p : Str) (b : Bool) (c : Str),
        resolvedFileOk root (comps p) = some (b, c) →
          collect root p =
            chars ("Processing single file: ") ++ basename p ++ chars ("\n\n") ++
              (delim ++ '\n' :: chars ("File: ") ++ basename p ++ '\n' :: delim ++
                '\n' :: c ++ ['\n'])) ∧
    (∀ (ps : List Str) (base cur n c : Str),
        fileOut ps base cur n (.file true (.ok c)) = []) ∧
    (∀ (ps : List Str) (base cur n c : Str), (strip c).isEmpty = true →
        fileOut ps base cur n (.file false (.ok c)) = []) := by
  refine ⟨?_, ?_, ?_⟩
  · intro root p b c h
    have hres := resolve_of_fileOk h
    unfold collect process_directory
    rw [hres]
  · intro ps base cur n c
    simp [fileOut]
  · intro ps base cur n c h
    simp [fileOut, h]

/-- Witness for C9 at a concrete binary file. -/
theorem single_file_skips_filters_witness :
    (resolvedFileOk (.dir [(chars ("b.bin"), .file true (.ok ['\x00']))])
        (comps (chars ("/b.bin"))) = some (true, ['\x00'])) ∧
      collect (.dir [(chars ("b.bin"), .file true (.ok ['\x00']))]) (chars ("/b.bin")) =
        chars ("Processing single file: ") ++ basename (chars ("/b.bin")) ++ chars ("\n\n") ++
          (delim ++ '\n' :: chars ("File: ") ++ basename (chars ("/b.bin")) ++ '\n' :: delim ++
            '\n' :: ['\x00'] ++ ['\n']) ∧
      fileOut [] (chars ("/r")) (chars ("/r")) (chars ("b.bin")) (.file true (.ok ['\x00'])) = [] :=
  ⟨by decide,
    single_file_skips_filters.1 (.dir [(chars ("b.bin"), .file true (.ok ['\x00']))])
      (chars ("/b.bin")) true ['\x00'] (by decide),
    single_file_skips_filters.2.1 [] (chars ("/r")) (chars ("/r")) (chars ("b.bin")) ['\x00']⟩

/-!  ## Read-error files are never dropped by the walk (claim C3) -/

theorem inf_left {x B : Str} (A : Str) (h : x <:+: B) : x <:+: A ++ B := by
  obtain ⟨s, t, rfl⟩ := h
  exact ⟨A ++ s, t, by simp⟩

theorem inf_right {x A : Str} (B : Str) (h : x <:+: A) : x <:+: A ++ B := by
  obtain ⟨s, t, rfl⟩ := h
  exact ⟨s, t ++ B, by simp⟩

theorem fileOut_err (ps : List Str) (base cur n e : Str)
    (hig : should_ignore (cur ++ '/' :: n) ps base false = false)
    (hhid : (n.head? == some '.') = false) :
    fileOut ps base cur n (.file false (.error e)) =
      errBlockFor (relpath (cur ++ '/' :: n) base) e := by
  simp [fileOut, hig, hhid, errBlockFor]

theorem infix_filesPart (ps : List Str) (base cur : Str) (entries : List (Str × FSEntry))
    (n : Str) (e : FSEntry) (hmem : (n, e) ∈ entries) :
    fileOut ps base cur n e <:+: filesPart ps base cur entries := by
  induction entries with
  | nil => cases hmem
  | cons it rest ih =>
    obtain ⟨m, f⟩ := it
    rcases List.mem_cons.mp hmem with h | h
    · cases h
      exact ⟨[], filesPart ps base cur rest, by simp [filesPart]⟩
    · exact inf_left _ (ih h)

theorem infix_walkSubs (ps : List Str) (base cur : Str) (entries : List (Str × FSEntry))
    (d : Str) (sub : List (Str × FSEntry)) (hmem : (d, FSEntry.dir sub) ∈ entries)
    (hig : should_ignore (cur ++ '/' :: d) ps base true = false)
    (hhid : (d.head? == some '.') = false) :
    walkFrom ps base (cur ++ '/' :: d) (.dir sub) <:+: walkSubs ps base cur entries := by
  induction entries with
  | nil => cases hmem
  | cons it rest ih =>
    obtain ⟨m, f⟩ := it
    rcases List.mem_cons.mp hmem with h | h
    · cases h
      simp only [walkSubs, isDirE, hig, hhid, Bool.not_false, Bool.and_true, Bool.true_and,
        if_true]
      exact inf_right _ ⟨[], [], by simp⟩
    · simp only [walkSubs]
      exact inf_left _ (ih h)

theorem walk_err_contained (ps : List Str) (base : Str) :
    ∀ (dpath : List Str) (cur : Str) (e : FSEntry) (fname emsg : Str),
      reachErrFile ps base cur e dpath fname emsg = true →
        errBlockFor (relpath (descPath cur dpath ++ '/' :: fname) base) emsg <:+:
          walkFrom ps base cur e := by
  intro dpath
  induction dpath with
  | nil =>
    intro cur e fname emsg h
    cases e with
    | file b rd => simp [reachErrFile] at h
    | dir entries =>
      simp only [reachErrFile] at h
      obtain ⟨⟨n, fe⟩, hmem, hit⟩ := List.any_eq_true.mp h
      simp only [Bool.and_eq_true, beq_iff_eq] at hit
      obtain ⟨hn, hrest⟩ := hit
      subst hn
      cases fe with
      | dir _ => simp at hrest
      | file b rd =>
        cases rd with
        | ok _ => simp at hrest
        | error m =>
          simp only [Bool.and_eq_true, beq_iff_eq, Bool.not_eq_true'] at hrest
          obtain ⟨⟨⟨hm, hb⟩, hhid⟩, hig⟩ := hrest
          subst hm
          subst hb
          rw [show descPath cur [] = cur from rfl]
          simp only [walkFrom]
          apply inf_right
          rw [← fileOut_err ps base cur n m hig hhid]
          exact infix_filesPart ps base cur entries n _ hmem
  | cons d rest ih =>
    intro cur e fname emsg h
    cases e with
    | file _ _ => simp [reachErrFile] at h
    | dir entries =>
      simp only [reachErrFile] at h
      obtain ⟨⟨n, fe⟩, hmem, hit⟩ := List.any_eq_true.mp h
      simp only [Bool.and_eq_true, beq_iff_eq] at hit
      obtain ⟨hn, hrest⟩ := hit
      subst hn
      cases fe with
      | file _ _ => simp at hrest
      | dir sub =>
        simp only [Bool.and_eq_true, Bool.not_eq_true'] at hrest
        obtain ⟨⟨hig, hhid⟩, hreach⟩ := hrest
        have hrec := ih (cur ++ '/' :: n) (.dir sub) fname emsg hreach
        rw [show descPath cur (n :: rest) = descPath (cur ++ '/' :: n) rest from rfl]
        simp only [walkFrom]
        apply inf_left
        exact hrec.trans (infix_walkSubs ps base cur entries n sub hmem hig hhid)

/-- Claim C3: in directory mode, a non-ignored, non-hidden, non-binary
file (below a chain of non-ignored, non-hidden directories) whose read
fails is still represented in the report: its content block, whose body
is the error message, occurs inside the output — the file is never
silently dropped. -/
theorem read_error_block_in_report (p : Str) (entries : List (Str × FSEntry))
    (dpath : List Str) (fname emsg : Str)
    (h : reachErrFile (get_gitignore_patterns entries) p p (.dir entries) dpath fname emsg
      = true) :
    errBlockFor (relpath (descPath p dpath ++ '/' :: fname) p) emsg <:+:
      process_directory (some (.dir entries)) p := by
  have hw := walk_err_contained (get_gitignore_patterns entries) p dpath p (.dir entries)
    fname emsg h
  simp only [process_directory]
  exact inf_left _ hw

/-- Witness for C3 at a concrete input: the unreadable file `sub/f.txt`
still gets its error block. -/
theorem read_error_block_in_report_witness :
    (reachErrFile
        (get_gitignore_patterns
          [(chars ("sub"), .dir [(chars ("f.txt"), .file false (.error (chars ("boom"))))])])
        (chars ("/r")) (chars ("/r"))
        (.dir [(chars ("sub"), .dir [(chars ("f.txt"), .file false (.error (chars ("boom"))))])])
        [chars ("sub")] (chars ("f.txt")) (chars ("boom")) = true) ∧
      errBlockFor
          (relpath (descPath (chars ("/r")) [chars ("sub")] ++ '/' :: chars ("f.txt"))
            (chars ("/r")))
          (chars ("boom")) <:+:
        process_directory
          (some (.dir
            [(chars ("sub"), .dir [(chars ("f.txt"), .file false (.error (chars ("boom"))))])]))
          (chars ("/r")) :=
  ⟨by decide,
    read_error_block_in_report (chars ("/r"))
      [(chars ("sub"), .dir [(chars ("f.txt"), .file false (.error (chars ("boom"))))])]
      [chars ("sub")] (chars ("f.txt")) (chars ("boom")) (by decide)⟩

end Collect
